import Mathlib

/-!
# ZettelGenius — verification of the knowledge-graph core

A shallow embedding of the note store, the wiki-link extractor, the graph
builder (both variants present in `src/components/NetworkGraph.tsx`), the
autocomplete trigger of the note editor, and the persistence layer of
`src/services/storageService.ts`, together with theorems settling the
specification's testable properties.
-/

namespace ZettelGenius

/-- The `Note` record from `types.ts` (src/unnamed/part_001): opaque id,
title, body content, tag list and two timestamps (`number` in the source,
modelled as `Nat`). -/
structure Note where
  id : String
  title : String
  content : String
  tags : List String
  createdAt : Nat
  updatedAt : Nat
deriving DecidableEq

/-- Predicate `hasPair a b l` is true iff the two-character sequence `a b` occurs
somewhere in `l` (JS `String.includes` for a two-character pattern). -/
def hasPair (a b : Char) : List Char → Bool
  | c :: d :: rest => (c == a && d == b) || hasPair a b (d :: rest)
  | _ => false

/-- One lazy step of the regex `/\[\[(.*?)\]\]/g` from NetworkGraph.tsx
(lines 94–104 and 395–405): after an opening `[[`, collect characters up to
the first `]]` and return the title together with the remainder after the
`]]`.  `.` does not match a newline, so a newline (or end of input) before
any `]]` means the match attempt fails (`none`). -/
def grabTitle : List Char → Option (List Char × List Char)
  | [] => none
  | [_] => none
  | c :: d :: rest =>
    if c = ']' ∧ d = ']' then some ([], rest)
    else if c = '\n' then none
    else (grabTitle (d :: rest)).map (fun p => (c :: p.1, p.2))

theorem grabTitle_eq : ∀ (s t r : List Char), grabTitle s = some (t, r) →
    s = t ++ ']' :: ']' :: r := by
  intro s
  induction s with
  | nil => intro t r h; simp [grabTitle] at h
  | cons c s ih =>
    intro t r h
    match s with
    | [] => simp [grabTitle] at h
    | d :: rest =>
      by_cases hc : c = ']' ∧ d = ']'
      · simp [grabTitle, hc] at h
        obtain ⟨ht, hr⟩ := h
        subst ht hr
        simp [hc.1, hc.2]
      · by_cases hn : c = '\n'
        · have : ¬ (c = ']' ∧ d = ']') := hc
          simp [grabTitle, this, hn] at h
        · cases hg : grabTitle (d :: rest) with
          | none => simp [grabTitle, hc, hn, hg] at h
          | some p =>
            obtain ⟨t', r'⟩ := p
            simp [grabTitle, hc, hn, hg] at h
            obtain ⟨ht, hr⟩ := h
            subst ht
            subst hr
            rw [ih t' r' hg]
            simp

theorem grabTitle_length {s t r : List Char} (h : grabTitle s = some (t, r)) :
    r.length < s.length := by
  have := grabTitle_eq s t r h
  subst this
  simp
  omega

/-- The full left-to-right scan of the body performed by the
`while ((match = regex.exec(...)) !== null)` loop: at each position, an
opening `[[` with a reachable `]]` (no newline in between) emits the lazy
capture and resumes after the closing `]]`; a failed attempt advances by
one character, exactly as the regex engine searches for the next match
position. -/
def linkScan : List Char → List (List Char)
  | [] => []
  | [_] => []
  | c :: d :: rest =>
    if c = '[' ∧ d = '[' then
      match h : grabTitle rest with
      | some (t, r) => t :: linkScan r
      | none => linkScan (d :: rest)
    else linkScan (d :: rest)
termination_by s => s.length
decreasing_by
  · have := grabTitle_length h
    simp
    omega
  · simp
  · simp

/-- Function `extractLinks` returns the ordered list of raw titles captured by the regex
loop, as strings. -/
def extractLinks (body : String) : List String :=
  (linkScan body.data).map (fun t => String.mk t)

/-- A string position starts a `[[` opening token. -/
def isOpenTok (s : List Char) : Prop := ∃ rest, s = '[' :: '[' :: rest

/-- Declarative reading of the specification sentence for link extraction:
the titles inside every non-overlapping `[[...]]` span collected scanning
left to right, each title free of newlines and closed at the first `]]`
pair (the minimality premise of `openHit`). A position that does not start
`[[`, or whose `[[` can only reach a `]]` across a newline, contributes
nothing and the scan moves on. -/
inductive LinksOf : List Char → List (List Char) → Prop
  | nil : LinksOf [] []
  | skip (c : Char) (s : List Char) (ls : List (List Char)) :
      ¬ isOpenTok (c :: s) → LinksOf s ls → LinksOf (c :: s) ls
  | openMiss (s : List Char) (ls : List (List Char)) :
      (∀ t r, s = t ++ ']' :: ']' :: r → '\n' ∈ t) →
      LinksOf ('[' :: s) ls → LinksOf ('[' :: '[' :: s) ls
  | openHit (t r : List Char) (ls : List (List Char)) :
      '\n' ∉ t →
      (∀ a b, t ++ ']' :: ']' :: r = a ++ ']' :: ']' :: b → t.length ≤ a.length) →
      LinksOf r ls → LinksOf ('[' :: '[' :: (t ++ ']' :: ']' :: r)) (t :: ls)

theorem grabTitle_no_newline : ∀ (s t r : List Char),
    grabTitle s = some (t, r) → '\n' ∉ t := by
  intro s
  induction s with
  | nil => intro t r h; simp [grabTitle] at h
  | cons c s ih =>
    intro t r h
    match s with
    | [] => simp [grabTitle] at h
    | d :: rest =>
      by_cases hc : c = ']' ∧ d = ']'
      · simp [grabTitle, hc] at h
        rw [h.1]
        simp
      · by_cases hn : c = '\n'
        · simp [grabTitle, hc, hn] at h
        · cases hg : grabTitle (d :: rest) with
          | none => simp [grabTitle, hc, hn, hg] at h
          | some p =>
            obtain ⟨t', r'⟩ := p
            simp [grabTitle, hc, hn, hg] at h
            obtain ⟨ht, hr⟩ := h
            subst ht
            simp
            exact ⟨fun hcn => hn hcn.symm, ih t' r' hg⟩

theorem grabTitle_min : ∀ (s t r : List Char), grabTitle s = some (t, r) →
    ∀ a b, s = a ++ ']' :: ']' :: b → t.length ≤ a.length := by
  intro s
  induction s with
  | nil => intro t r h; simp [grabTitle] at h
  | cons c s ih =>
    intro t r h a b heq
    match s with
    | [] => simp [grabTitle] at h
    | d :: rest =>
      by_cases hc : c = ']' ∧ d = ']'
      · simp [grabTitle, hc] at h
        simp [h.1]
      · by_cases hn : c = '\n'
        · simp [grabTitle, hc, hn] at h
        · cases hg : grabTitle (d :: rest) with
          | none => simp [grabTitle, hc, hn, hg] at h
          | some p =>
            obtain ⟨t', r'⟩ := p
            simp [grabTitle, hc, hn, hg] at h
            obtain ⟨ht, hr⟩ := h
            subst ht
            match a with
            | [] =>
              rw [List.nil_append] at heq
              injection heq with h1 h2
              injection h2 with h3 _
              exact absurd ⟨h1, h3⟩ hc
            | a0 :: a1 =>
              rw [List.cons_append] at heq
              injection heq with h1 h2
              simp only [List.length_cons]
              exact Nat.succ_le_succ (ih t' r' hg a1 b h2)

theorem grabTitle_none_decomp : ∀ (s : List Char), grabTitle s = none →
    ∀ t r, s = t ++ ']' :: ']' :: r → '\n' ∈ t := by
  intro s
  induction s with
  | nil =>
    intro _ t r heq
    match t with
    | [] => simp at heq
    | _ :: _ => simp at heq
  | cons c s ih =>
    intro h t r heq
    match s with
    | [] =>
      match t with
      | [] =>
        rw [List.nil_append] at heq
        injection heq with _ h2
        simp at h2
      | t0 :: t1 =>
        rw [List.cons_append] at heq
        injection heq with _ h2
        match t1 with
        | [] => simp at h2
        | _ :: _ => simp at h2
    | d :: rest =>
      by_cases hc : c = ']' ∧ d = ']'
      · simp [grabTitle, hc] at h
      · by_cases hn : c = '\n'
        · match t with
          | [] =>
            rw [List.nil_append] at heq
            injection heq with h1 _
            exact absurd h1 (by rw [hn]; decide)
          | t0 :: t1 =>
            rw [List.cons_append] at heq
            injection heq with h1 _
            rw [← h1, hn]
            simp
        · cases hg : grabTitle (d :: rest) with
          | some p => simp [grabTitle, hc, hn, hg] at h
          | none =>
            match t with
            | [] =>
              rw [List.nil_append] at heq
              injection heq with h1 h2
              injection h2 with h3 _
              exact absurd ⟨h1, h3⟩ hc
            | t0 :: t1 =>
              rw [List.cons_append] at heq
              injection heq with _ h2
              exact List.mem_cons_of_mem t0 (ih hg t1 r h2)

theorem linkScan_cons_hit (c d : Char) (rest t r : List Char)
    (hcd : c = '[' ∧ d = '[') (hg : grabTitle rest = some (t, r)) :
    linkScan (c :: d :: rest) = t :: linkScan r := by
  simp only [linkScan, if_pos hcd]
  split
  · rename_i t' r' hg'
    rw [hg] at hg'
    injection hg' with h
    injection h with h1 h2
    rw [h1, h2]
  · rename_i hg'
    rw [hg] at hg'
    exact absurd hg' (by simp)

theorem linkScan_cons_miss (c d : Char) (rest : List Char)
    (hcd : c = '[' ∧ d = '[') (hg : grabTitle rest = none) :
    linkScan (c :: d :: rest) = linkScan (d :: rest) := by
  simp only [linkScan, if_pos hcd]
  split
  · rename_i t' r' hg'
    rw [hg] at hg'
    exact absurd hg' (by simp)
  · rfl

theorem linkScan_cons_skip (c d : Char) (rest : List Char)
    (hcd : ¬(c = '[' ∧ d = '[')) :
    linkScan (c :: d :: rest) = linkScan (d :: rest) := by
  simp only [linkScan, if_neg hcd]

/-- The implemented scan realizes the declarative extraction relation. -/
theorem linksOf_linkScan : ∀ s : List Char, LinksOf s (linkScan s) := by
  intro s
  induction s using linkScan.induct with
  | case1 => simpa [linkScan] using LinksOf.nil
  | case2 c =>
    rw [show linkScan [c] = [] from by simp [linkScan]]
    exact LinksOf.skip c [] [] (by rintro ⟨rest, h⟩; simp at h) LinksOf.nil
  | case3 c d rest hcd t r hg ih =>
    rw [linkScan_cons_hit c d rest t r hcd hg]
    obtain ⟨hc, hd⟩ := hcd
    subst hc
    subst hd
    have hrest := grabTitle_eq rest t r hg
    rw [hrest]
    exact LinksOf.openHit t r (linkScan r)
      (grabTitle_no_newline rest t r hg)
      (fun a b hab => grabTitle_min rest t r hg a b (hrest.trans hab))
      ih
  | case4 c d rest hcd hg ih =>
    rw [linkScan_cons_miss c d rest hcd hg]
    obtain ⟨hc, hd⟩ := hcd
    subst hc
    subst hd
    exact LinksOf.openMiss rest (linkScan ('[' :: rest))
      (grabTitle_none_decomp rest hg) ih
  | case5 c d rest hcd ih =>
    rw [linkScan_cons_skip c d rest hcd]
    exact LinksOf.skip c (d :: rest) (linkScan (d :: rest))
      (by rintro ⟨rest', h⟩; injection h with h1 h2; injection h2 with h3 _;
          exact hcd ⟨h1, h3⟩) ih

/-- The declarative extraction relation is deterministic: the minimality
premise of `openHit` pins every span to its first closing `]]`. -/
theorem linksOf_det : ∀ {s : List Char} {l1 l2 : List (List Char)},
    LinksOf s l1 → LinksOf s l2 → l1 = l2 := by
  intro s l1 l2 h1
  induction h1 generalizing l2 with
  | nil =>
    intro h2
    cases h2
    rfl
  | skip c s ls hno hsub ih =>
    intro h2
    cases h2 with
    | skip _ _ _ hno2 hsub2 => exact ih hsub2
    | openMiss s2 ls2 hmiss2 hsub2 => exact absurd ⟨_, rfl⟩ hno
    | openHit t2 r2 ls2 hn2 hmin2 hsub2 => exact absurd ⟨_, rfl⟩ hno
  | openMiss s ls hmiss hsub ih =>
    intro h2
    cases h2 with
    | skip _ _ _ hno2 hsub2 => exact absurd ⟨_, rfl⟩ hno2
    | openMiss s2 ls2 hmiss2 hsub2 => exact ih hsub2
    | openHit t2 r2 ls2 hn2 hmin2 hsub2 =>
      exact absurd (hmiss t2 r2 rfl) hn2
  | openHit t r ls hn hmin hsub ih =>
    intro h2
    have key : ∀ (s0 : List Char) (l2 : List (List Char)),
        s0 = '[' :: '[' :: (t ++ ']' :: ']' :: r) → LinksOf s0 l2 → t :: ls = l2 := by
      intro s0 l2 hs0 hh
      cases hh with
      | nil => simp at hs0
      | skip c2 s2 ls2 hno2 hsub2 =>
        injection hs0 with h1 h2
        exact absurd ⟨t ++ ']' :: ']' :: r, by rw [h1, h2]⟩ hno2
      | openMiss s2 ls2 hmiss2 hsub2 =>
        injection hs0 with h1 h2
        injection h2 with h3 h4
        exact absurd (hmiss2 t r h4) hn
      | openHit t2 r2 ls2 hn2 hmin2 hsub2 =>
        injection hs0 with h1 h2
        injection h2 with h3 h4
        have hlen : t2.length = t.length :=
          Nat.le_antisymm (hmin2 t r h4) (hmin t2 r2 h4.symm)
        obtain ⟨hteq, hreq⟩ := List.append_inj h4 hlen
        injection hreq with _ hreq2
        injection hreq2 with _ hreq3
        subst hteq
        rw [ih (hreq3 ▸ hsub2)]
    exact key _ l2 rfl h2

theorem hasPair_exists (a b : Char) : ∀ l : List Char, hasPair a b l = true →
    ∃ x y, l = x ++ a :: b :: y := by
  intro l
  induction l with
  | nil => intro h; simp [hasPair] at h
  | cons c t ih =>
    intro h
    match t with
    | [] => simp [hasPair] at h
    | d :: rest =>
      rw [hasPair] at h
      rcases (Bool.or_eq_true _ _).mp h with h1 | h2
      · rw [Bool.and_eq_true] at h1
        refine ⟨[], rest, ?_⟩
        rw [eq_of_beq h1.1, eq_of_beq h1.2]
        rfl
      · obtain ⟨x, y, hxy⟩ := ih h2
        exact ⟨c :: x, y, by rw [List.cons_append, ← hxy]⟩

theorem min_no_close {t r : List Char}
    (hmin : ∀ a b, t ++ ']' :: ']' :: r = a ++ ']' :: ']' :: b → t.length ≤ a.length) :
    hasPair ']' ']' t = false := by
  by_contra h
  rw [Bool.not_eq_false] at h
  obtain ⟨x, y, hxy⟩ := hasPair_exists ']' ']' t h
  have hle := hmin x (y ++ ']' :: ']' :: r) (by rw [hxy]; simp)
  rw [hxy] at hle
  simp at hle

/-- Every title the scanner emits is newline-free and contains no `]]`
pair (it is closed at the very first `]]`). -/
theorem linkScan_titles : ∀ s t : List Char, t ∈ linkScan s →
    '\n' ∉ t ∧ hasPair ']' ']' t = false := by
  intro s
  induction s using linkScan.induct with
  | case1 => intro t h; simp [linkScan] at h
  | case2 c => intro t h; simp [linkScan] at h
  | case3 c d rest hcd t r hg ih =>
    intro t0 h0
    rw [linkScan_cons_hit c d rest t r hcd hg] at h0
    rcases List.mem_cons.mp h0 with rfl | hmem
    · have hrest := grabTitle_eq rest t0 r hg
      exact ⟨grabTitle_no_newline rest t0 r hg,
        min_no_close (fun a b hab => grabTitle_min rest t0 r hg a b (hrest.trans hab))⟩
    · exact ih t0 hmem
  | case4 c d rest hcd hg ih =>
    intro t0 h0
    rw [linkScan_cons_miss c d rest hcd hg] at h0
    exact ih t0 h0
  | case5 c d rest hcd ih =>
    intro t0 h0
    rw [linkScan_cons_skip c d rest hcd] at h0
    exact ih t0 h0

/-- C1. Link extraction returns exactly the titles inside every
non-overlapping `[[...]]` span scanned left to right: the scan satisfies
the declarative `LinksOf` relation, that relation is deterministic (so the
scan's result is the unique such list), every emitted title contains no
newline and no `]]` pair, and on the body
`"See [[Space]] and [[Time Travel]]."` the extraction yields the ordered
list `["Space", "Time Travel"]`. -/
theorem extraction_exact :
    (∀ s : String, LinksOf s.data (linkScan s.data)) ∧
    (∀ (s : List Char) (l1 l2 : List (List Char)),
      LinksOf s l1 → LinksOf s l2 → l1 = l2) ∧
    (∀ (s : String) (t : List Char), t ∈ linkScan s.data →
      '\n' ∉ t ∧ hasPair ']' ']' t = false) ∧
    extractLinks "See [[Space]] and [[Time Travel]]." = ["Space", "Time Travel"] := by
  refine ⟨fun s => linksOf_linkScan s.data, fun s l1 l2 => linksOf_det, ?_, ?_⟩
  · exact fun s t h => linkScan_titles s.data t h
  · simp [extractLinks, linkScan, grabTitle, String.data]

/-- Witness for C1 at concrete inputs: the membership and `LinksOf`
hypotheses are discharged on the example body from the specification. -/
theorem extraction_exact_witness :
    ('\n' ∉ ['S', 'p', 'a', 'c', 'e'] ∧
      hasPair ']' ']' ['S', 'p', 'a', 'c', 'e'] = false) ∧
    linkScan "See [[Space]] and [[Time Travel]].".data =
      linkScan "See [[Space]] and [[Time Travel]].".data := by
  constructor
  · exact extraction_exact.2.2.1 "See [[Space]] and [[Time Travel]]."
      ['S', 'p', 'a', 'c', 'e'] (by simp [linkScan, grabTitle, String.data])
  · exact extraction_exact.2.1 _ _ _
      (extraction_exact.1 "See [[Space]] and [[Time Travel]].")
      (extraction_exact.1 "See [[Space]] and [[Time Travel]].")

/-- JS `String.toLowerCase` (titles in this code base are ASCII-ranged;
`Char.toLower` agrees there). -/
def lowerStr (s : String) : String := String.mk (s.data.map Char.toLower)

/-- A JS `Map` built by repeated `set`, observed only through `get` in the
source (`titleToId.get`, `noteIdMap.get`): `set` records the new binding,
`get` answers with the most recently set value for the key, which is the
only observable behaviour the graph builders use. -/
def mapSet (m : List (String × String)) (k v : String) : List (String × String) :=
  (k, v) :: m

/-- JS `Map.get`: the value of the last `set` for the key, if any. -/
def mapGet (m : List (String × String)) (k : String) : Option String :=
  (m.find? (fun p => p.1 == k)).map (fun p => p.2)

/-- Index `titleToId` of the primary graph builder (NetworkGraph.tsx line 92):
`new Map(notes.map(n => [n.title.toLowerCase(), n.id]))`, entries set in
collection order so that later notes overwrite earlier ones. -/
def titleToId (notes : List Note) : List (String × String) :=
  notes.foldl (fun m n => mapSet m (lowerStr n.title) n.id) []

/-- Index `noteIdMap` of the variant builder (NetworkGraph.tsx lines 392–393):
`notes.forEach(n => noteIdMap.set(n.title, n.id))` — raw titles, no case
normalization. -/
def noteIdMap (notes : List Note) : List (String × String) :=
  notes.foldl (fun m n => mapSet m n.title n.id) []

theorem find?_append {α : Type} (p : α → Bool) : ∀ l1 l2 : List α,
    (l1 ++ l2).find? p = match l1.find? p with
      | some x => some x
      | none => l2.find? p := by
  intro l1 l2
  induction l1 with
  | nil => simp
  | cons a l ih =>
    by_cases hp : p a
    · simp [List.find?_cons, hp]
    · simp only [List.cons_append, List.find?_cons, Bool.not_eq_true] at *
      rw [hp, ih]

theorem mapGet_foldl (key : Note → String) : ∀ (notes : List Note)
    (m : List (String × String)) (k : String),
    mapGet (notes.foldl (fun m n => mapSet m (key n) n.id) m) k =
      match notes.reverse.find? (fun n => key n == k) with
      | some x => some x.id
      | none => mapGet m k := by
  intro notes
  induction notes with
  | nil => simp
  | cons n ns ih =>
    intro m k
    rw [List.foldl_cons, ih, List.reverse_cons, find?_append (fun n => key n == k)]
    cases hfind : ns.reverse.find? (fun n => key n == k) with
    | some x => rfl
    | none =>
      by_cases hn : (key n == k) = true
      · simp [List.find?, hn, mapGet, mapSet]
      · simp only [Bool.not_eq_true] at hn
        simp [List.find?, hn, mapGet, mapSet]

/-- Resolution through `titleToId` is last-seen-wins: the id of the last
note (in collection order) whose lowercased title equals the key. -/
theorem mapGet_titleToId (notes : List Note) (k : String) :
    mapGet (titleToId notes) k =
      match notes.reverse.find? (fun n => lowerStr n.title == k) with
      | some x => some x.id
      | none => none := by
  rw [titleToId, mapGet_foldl (fun n => lowerStr n.title) notes [] k]
  cases notes.reverse.find? (fun n => lowerStr n.title == k) with
  | some x => rfl
  | none => rfl

/-- Resolution through `noteIdMap` (variant builder) is last-seen-wins on
raw titles. -/
theorem mapGet_noteIdMap (notes : List Note) (k : String) :
    mapGet (noteIdMap notes) k =
      match notes.reverse.find? (fun n => n.title == k) with
      | some x => some x.id
      | none => none := by
  rw [noteIdMap, mapGet_foldl (fun n => n.title) notes [] k]
  cases notes.reverse.find? (fun n => n.title == k) with
  | some x => rfl
  | none => rfl

theorem mapGet_foldl_mem (key : Note → String) (notes : List Note) (k v : String)
    (h : mapGet (notes.foldl (fun m n => mapSet m (key n) n.id) []) k = some v) :
    ∃ n ∈ notes, n.id = v := by
  rw [mapGet_foldl key notes [] k] at h
  cases hfind : notes.reverse.find? (fun n => key n == k) with
  | some x =>
    rw [hfind] at h
    injection h with h1
    exact ⟨x, List.mem_reverse.mp (List.mem_of_find?_eq_some hfind), h1⟩
  | none =>
    rw [hfind] at h
    simp [mapGet] at h

/-- A directed graph edge as pushed by both builders. -/
structure Edge where
  source : String
  target : String
deriving DecidableEq

/-- Loop body of the primary builder (NetworkGraph.tsx lines 97–103): the
captured title is lowercased, resolved through `titleToId`, and an edge is
pushed when resolution succeeds with a target different from the source. -/
def resolveLink (idx : List (String × String)) (sourceId : String)
    (t : List Char) : Option Edge :=
  match mapGet idx (lowerStr (String.mk t)) with
  | some targetId => if targetId ≠ sourceId then some ⟨sourceId, targetId⟩ else none
  | none => none

def noteEdges (idx : List (String × String)) (n : Note) : List Edge :=
  (linkScan n.content.data).filterMap (resolveLink idx n.id)

/-- The `links` array accumulated by the primary builder (lines 94–104). -/
def buildLinks (notes : List Note) : List Edge :=
  notes.flatMap (noteEdges (titleToId notes))

/-- Loop body of the variant builder (lines 398–404): raw (case-sensitive)
lookup in `noteIdMap`. -/
def resolveLink2 (idx : List (String × String)) (sourceId : String)
    (t : List Char) : Option Edge :=
  match mapGet idx (String.mk t) with
  | some targetId => if targetId ≠ sourceId then some ⟨sourceId, targetId⟩ else none
  | none => none

def noteEdges2 (idx : List (String × String)) (n : Note) : List Edge :=
  (linkScan n.content.data).filterMap (resolveLink2 idx n.id)

/-- The `links` array accumulated by the variant builder (lines 395–405). -/
def buildLinks2 (notes : List Note) : List Edge :=
  notes.flatMap (noteEdges2 (noteIdMap notes))

end ZettelGenius

namespace ZettelGenius

theorem resolveLink_shape (idx : List (String × String)) (sourceId : String)
    (t : List Char) (e : Edge) (h : resolveLink idx sourceId t = some e) :
    e.source = sourceId ∧ mapGet idx (lowerStr (String.mk t)) = some e.target ∧
      e.target ≠ sourceId := by
  unfold resolveLink at h
  cases hm : mapGet idx (lowerStr (String.mk t)) with
  | none => rw [hm] at h; exact absurd h (by simp)
  | some targetId =>
    rw [hm] at h
    have h' : (if targetId ≠ sourceId then some (Edge.mk sourceId targetId)
        else none) = some e := h
    by_cases hne : targetId ≠ sourceId
    · rw [if_pos hne] at h'
      injection h' with h1
      subst h1
      exact ⟨rfl, rfl, hne⟩
    · rw [if_neg hne] at h'
      exact absurd h' (by simp)

theorem resolveLink2_shape (idx : List (String × String)) (sourceId : String)
    (t : List Char) (e : Edge) (h : resolveLink2 idx sourceId t = some e) :
    e.source = sourceId ∧ mapGet idx (String.mk t) = some e.target ∧
      e.target ≠ sourceId := by
  unfold resolveLink2 at h
  cases hm : mapGet idx (String.mk t) with
  | none => rw [hm] at h; exact absurd h (by simp)
  | some targetId =>
    rw [hm] at h
    have h' : (if targetId ≠ sourceId then some (Edge.mk sourceId targetId)
        else none) = some e := h
    by_cases hne : targetId ≠ sourceId
    · rw [if_pos hne] at h'
      injection h' with h1
      subst h1
      exact ⟨rfl, rfl, hne⟩
    · rw [if_neg hne] at h'
      exact absurd h' (by simp)

/-- C3. In both graph builders every produced edge runs between ids of
notes present in the collection, and never from a note to itself. -/
theorem edges_between_existing_no_self (notes : List Note) (e : Edge) :
    (e ∈ buildLinks notes →
      (∃ n ∈ notes, n.id = e.source) ∧ (∃ n ∈ notes, n.id = e.target) ∧
        e.source ≠ e.target) ∧
    (e ∈ buildLinks2 notes →
      (∃ n ∈ notes, n.id = e.source) ∧ (∃ n ∈ notes, n.id = e.target) ∧
        e.source ≠ e.target) := by
  constructor
  · intro h
    obtain ⟨n, hn, hmem⟩ := List.mem_flatMap.mp h
    obtain ⟨t, ht, hres⟩ := List.mem_filterMap.mp hmem
    obtain ⟨hsrc, htgt, hne⟩ := resolveLink_shape _ _ _ _ hres
    refine ⟨⟨n, hn, hsrc.symm⟩, ?_, ?_⟩
    · exact mapGet_foldl_mem (fun n => lowerStr n.title) notes _ _ htgt
    · rw [hsrc]; exact fun hh => hne hh.symm
  · intro h
    obtain ⟨n, hn, hmem⟩ := List.mem_flatMap.mp h
    obtain ⟨t, ht, hres⟩ := List.mem_filterMap.mp hmem
    obtain ⟨hsrc, htgt, hne⟩ := resolveLink2_shape _ _ _ _ hres
    refine ⟨⟨n, hn, hsrc.symm⟩, ?_, ?_⟩
    · exact mapGet_foldl_mem (fun n => n.title) notes _ _ htgt
    · rw [hsrc]; exact fun hh => hne hh.symm

/-- Witness for C3: a two-note collection with one resolving link in each
builder (case-differing for the primary builder, exact-case for the
variant), checked at the produced edge. -/
theorem edges_between_existing_no_self_witness :
    ((∃ n ∈ [Note.mk "a" "Space" "" [] 0 0, Note.mk "b" "Beta" "See [[space]]" [] 0 0],
        n.id = "b") ∧
      (∃ n ∈ [Note.mk "a" "Space" "" [] 0 0, Note.mk "b" "Beta" "See [[space]]" [] 0 0],
        n.id = "a") ∧ ("b" : String) ≠ "a") ∧
    ((∃ n ∈ [Note.mk "a" "Space" "" [] 0 0, Note.mk "b" "Beta" "See [[Space]]" [] 0 0],
        n.id = "b") ∧
      (∃ n ∈ [Note.mk "a" "Space" "" [] 0 0, Note.mk "b" "Beta" "See [[Space]]" [] 0 0],
        n.id = "a") ∧ ("b" : String) ≠ "a") := by
  constructor
  · exact (edges_between_existing_no_self
      [Note.mk "a" "Space" "" [] 0 0, Note.mk "b" "Beta" "See [[space]]" [] 0 0]
      (Edge.mk "b" "a")).1 (by
        simp [buildLinks, noteEdges, titleToId, mapSet, mapGet, resolveLink, lowerStr,
          linkScan, grabTitle, String.data, List.find?])
  · exact (edges_between_existing_no_self
      [Note.mk "a" "Space" "" [] 0 0, Note.mk "b" "Beta" "See [[Space]]" [] 0 0]
      (Edge.mk "b" "a")).2 (by
        simp [buildLinks2, noteEdges2, noteIdMap, mapSet, mapGet, resolveLink2, lowerStr,
          linkScan, grabTitle, String.data, List.find?])

end ZettelGenius

namespace ZettelGenius

/-- C2 (amended). In the primary graph builder (`titleToId`, lines 92–104)
resolution is case-insensitive: whenever some note's lowercased title
equals the lowercased link title, the lookup succeeds and answers with the
id of a note carrying that lowercased title; and every link of a note that
resolves to some other note yields the corresponding edge. On the concrete
collection of the claim, `[[space]]` in note `b` with note `a` titled
`"Space"` produces exactly the edge `b → a`. -/
theorem case_insensitive_resolution :
    (∀ (notes : List Note) (b : Note) (t : List Char), b ∈ notes →
      lowerStr (String.mk t) = lowerStr b.title →
      ∃ v, mapGet (titleToId notes) (lowerStr (String.mk t)) = some v ∧
        ∃ m ∈ notes, m.id = v ∧ lowerStr m.title = lowerStr b.title) ∧
    (∀ (notes : List Note) (n : Note) (t : List Char) (e : Edge),
      n ∈ notes → t ∈ linkScan n.content.data →
      resolveLink (titleToId notes) n.id t = some e → e ∈ buildLinks notes) ∧
    buildLinks [Note.mk "a" "Space" "" [] 0 0,
      Note.mk "b" "Beta" "See [[space]]" [] 0 0] = [Edge.mk "b" "a"] := by
  refine ⟨?_, ?_, ?_⟩
  · intro notes b t hb hkey
    rw [mapGet_titleToId]
    have hsome : (notes.reverse.find?
        (fun n => lowerStr n.title == lowerStr (String.mk t))).isSome := by
      rw [List.find?_isSome]
      exact ⟨b, List.mem_reverse.mpr hb, by rw [hkey]; exact beq_self_eq_true _⟩
    cases hfind : notes.reverse.find?
        (fun n => lowerStr n.title == lowerStr (String.mk t)) with
    | none => rw [hfind] at hsome; simp at hsome
    | some x =>
      refine ⟨x.id, rfl, x, List.mem_reverse.mp (List.mem_of_find?_eq_some hfind), rfl, ?_⟩
      have := List.find?_some hfind
      rw [← hkey]
      exact eq_of_beq this
  · intro notes n t e hn ht hres
    exact List.mem_flatMap.mpr ⟨n, hn, List.mem_filterMap.mpr ⟨t, ht, hres⟩⟩
  · simp [buildLinks, noteEdges, titleToId, mapSet, mapGet, resolveLink, lowerStr,
      linkScan, grabTitle, String.data, List.find?]

/-- Witness for C2: the two general parts applied on the concrete two-note
collection with the case-differing link `[[space]]`. -/
theorem case_insensitive_resolution_witness :
    (∃ v, mapGet (titleToId [Note.mk "a" "Space" "" [] 0 0,
        Note.mk "b" "Beta" "See [[space]]" [] 0 0])
        (lowerStr (String.mk ['s', 'p', 'a', 'c', 'e'])) = some v ∧
      ∃ m ∈ [Note.mk "a" "Space" "" [] 0 0,
        Note.mk "b" "Beta" "See [[space]]" [] 0 0],
        m.id = v ∧ lowerStr m.title = lowerStr (Note.mk "a" "Space" "" [] 0 0).title) ∧
    Edge.mk "b" "a" ∈ buildLinks [Note.mk "a" "Space" "" [] 0 0,
      Note.mk "b" "Beta" "See [[space]]" [] 0 0] := by
  constructor
  · exact case_insensitive_resolution.1
      [Note.mk "a" "Space" "" [] 0 0, Note.mk "b" "Beta" "See [[space]]" [] 0 0]
      (Note.mk "a" "Space" "" [] 0 0) ['s', 'p', 'a', 'c', 'e']
      (by simp) (by simp [lowerStr, String.data])
  · exact case_insensitive_resolution.2.1
      [Note.mk "a" "Space" "" [] 0 0, Note.mk "b" "Beta" "See [[space]]" [] 0 0]
      (Note.mk "b" "Beta" "See [[space]]" [] 0 0) ['s', 'p', 'a', 'c', 'e']
      (Edge.mk "b" "a") (by simp)
      (by simp [linkScan, grabTitle, String.data])
      (by simp [resolveLink, titleToId, mapSet, mapGet, lowerStr, String.data, List.find?])

/-- Counterexample for C2 as stated: the variant graph builder
(`noteIdMap`, NetworkGraph.tsx lines 392–405) matches titles
case-sensitively, so on the same collection the link `[[space]]` does not
resolve to the note titled `"Space"` and no edge at all is produced. -/
theorem case_insensitive_resolution_cex :
    buildLinks2 [Note.mk "a" "Space" "" [] 0 0,
      Note.mk "b" "Beta" "See [[space]]" [] 0 0] = [] := by
  simp [buildLinks2, noteEdges2, noteIdMap, mapSet, mapGet, resolveLink2, lowerStr,
    linkScan, grabTitle, String.data, List.find?]

end ZettelGenius

namespace ZettelGenius

/-- C9. Both title-resolution indexes are deterministic and last-seen-wins:
a lookup answers with the id of the last note in collection order whose
(builder-specific normalization of the) title equals the key — in the
primary builder the lowercased title, in the variant builder the raw
title. On a concrete collection with two notes whose titles agree up to
case, the primary index answers with the second note's id, and on two
notes with identical raw titles the variant index answers with the second
note's id as well. -/
theorem duplicate_title_last_seen_wins :
    (∀ (notes : List Note) (k : String),
      mapGet (titleToId notes) k =
        match notes.reverse.find? (fun n => lowerStr n.title == k) with
        | some x => some x.id
        | none => none) ∧
    (∀ (notes : List Note) (k : String),
      mapGet (noteIdMap notes) k =
        match notes.reverse.find? (fun n => n.title == k) with
        | some x => some x.id
        | none => none) ∧
    mapGet (titleToId [Note.mk "first" "Dup" "" [] 0 0,
      Note.mk "second" "dup" "" [] 0 0]) "dup" = some "second" ∧
    mapGet (noteIdMap [Note.mk "x1" "Same" "" [] 0 0,
      Note.mk "x2" "Same" "" [] 0 0]) "Same" = some "x2" := by
  refine ⟨mapGet_titleToId, mapGet_noteIdMap, ?_, ?_⟩
  · simp [titleToId, mapSet, mapGet, lowerStr, String.data, List.find?]
  · simp [noteIdMap, mapSet, mapGet, List.find?]

theorem count_filterMap {α β : Type} [DecidableEq β] (f : α → Option β) (b : β) :
    ∀ l : List α, ((l.filterMap f).count b) =
      (l.filter (fun a => f a == some b)).length := by
  intro l
  induction l with
  | nil => simp
  | cons a l ih =>
    cases hf : f a with
    | none =>
      have hb : (f a == some b) = false := by rw [hf]; rfl
      simp [List.filterMap_cons, List.filter_cons, hf, hb, ih]
    | some c =>
      by_cases hc : c = b
      · subst hc
        have hb : (f a == some c) = true := by rw [hf]; exact beq_self_eq_true _
        simp [List.filterMap_cons, List.filter_cons, hf, hb, List.count_cons, ih]
      · have hb : (f a == some b) = false := by
          rw [hf]
          exact beq_eq_false_iff_ne.mpr (by simp [hc])
        simp [List.filterMap_cons, List.filter_cons, hf, hb, List.count_cons, ih, hc]

/-- C10. Duplicate identical wiki-links are not deduplicated: in either
builder, each edge value occurs in a note's emitted edge list once per
extracted link token that resolves to it, and a body containing the same
resolving link twice yields two parallel copies of the edge. -/
theorem duplicate_links_parallel_edges :
    (∀ (idx : List (String × String)) (n : Note) (e : Edge),
      ((noteEdges idx n).count e) =
        ((linkScan n.content.data).filter
          (fun t => resolveLink idx n.id t == some e)).length) ∧
    (∀ (idx : List (String × String)) (n : Note) (e : Edge),
      ((noteEdges2 idx n).count e) =
        ((linkScan n.content.data).filter
          (fun t => resolveLink2 idx n.id t == some e)).length) ∧
    buildLinks [Note.mk "a" "X" "" [] 0 0,
      Note.mk "b" "Beta" "See [[X]] and [[X]]." [] 0 0] =
      [Edge.mk "b" "a", Edge.mk "b" "a"] := by
  refine ⟨?_, ?_, ?_⟩
  · intro idx n e
    exact count_filterMap (resolveLink idx n.id) e (linkScan n.content.data)
  · intro idx n e
    exact count_filterMap (resolveLink2 idx n.id) e (linkScan n.content.data)
  · simp [buildLinks, noteEdges, titleToId, mapSet, mapGet, resolveLink, lowerStr,
      linkScan, grabTitle, String.data, List.find?]

end ZettelGenius

namespace ZettelGenius

/-- Constant `INITIAL_NOTE_CONTENT` from `src/constants.ts`. -/
def INITIAL_NOTE_CONTENT : String :=
  "# Willkommen an Bord 🚀\n\nDu bist jetzt Pilot von **ZettelGenius**. Keine Sorge, es ist ganz einfach.\nFühre diese **3 Missionen** aus, um das System zu verstehen:\n\n---\n\n### Mission 1: Die KI nutzen 🤖\n1. Klicke oben rechts auf den **Zauberstab** (✨).\n2. Warte kurz. Die KI wird diesen Text lesen und verbessern.\n\n### Mission 2: Vernetzung testen 🔗\nWir haben hier ein verstecktes Konzept: [[Weltraum]].\n1. Erstelle links eine **Neue Notiz** (Button: \"New Entry\").\n2. Nenne sie als Titel: **Weltraum**.\n3. Schreibe dort etwas rein (z.B. \"Der Weltraum ist unendlich.\").\n4. Gehe zurück zu *dieser* Notiz hier.\n5. Klicke oben rechts auf das **grüne Ketten-Symbol** (Auto-Link).\n6. Sieh zu, wie das Wort \"Weltraum\" oben magisch verlinkt wird!\n\n### Mission 3: Die Galaxy sehen 🌌\n1. Wenn du Mission 2 erledigt hast, klicke ganz oben links auf das **Netzwerk-Icon**.\n2. Du siehst jetzt deine Gedanken als Sterne.\n3. Du kannst sie mit der Maus ziehen und hineinzoomen.\n\n---\n*Viel Spaß beim Denken!*\n"

/-- The value persisted under the key `zettel_genius_notes_v1`: absent
(`localStorage.getItem` returns null), a string that `JSON.parse` reads as
a note array, or present but unparseable (`JSON.parse` throws). -/
inductive Stored where
  | valid : List Note → Stored
  | corrupt : Stored
deriving DecidableEq

/-- The bootstrap note built by `getNotes` when nothing is stored
(storageService.ts lines 9–16); `crypto.randomUUID()` and `Date.now()`
enter as the parameters `newId` and `now`. -/
def initialNote (newId : String) (now : Nat) : Note :=
  { id := newId, title := "Welcome", content := INITIAL_NOTE_CONTENT,
    tags := ["intro", "guide"], createdAt := now, updatedAt := now }

/-- Function `getNotes` (storageService.ts lines 6–26), returning the collection
together with the storage state after the call: nothing stored → the
bootstrap note is created, persisted and returned; a stored collection is
parsed and returned; a parse failure is caught, logged, and answered with
`[]`, the stored value left as it was. -/
def getNotes (st : Option Stored) (newId : String) (now : Nat) :
    List Note × Option Stored :=
  match st with
  | none =>
    let w := initialNote newId now
    ([w], some (Stored.valid [w]))
  | some (Stored.valid ns) => (ns, some (Stored.valid ns))
  | some Stored.corrupt => ([], some Stored.corrupt)

/-- Collection transform inside `saveNote` (lines 30–38): an existing id
(`findIndex >= 0`) is replaced in place by `{...updatedNote, updatedAt:
Date.now()}`; otherwise the note is prepended unchanged. -/
def saveNoteOn (notes : List Note) (updatedNote : Note) (now : Nat) : List Note :=
  match notes.findIdx? (fun n => n.id == updatedNote.id) with
  | some index => notes.set index { updatedNote with updatedAt := now }
  | none => updatedNote :: notes

/-- Function `saveNote` (lines 28–42): read the collection, update or insert,
persist the result and return it. -/
def saveNote (st : Option Stored) (newId : String) (now : Nat)
    (updatedNote : Note) : List Note × Option Stored :=
  let notes := (getNotes st newId now).1
  let newNotes := saveNoteOn notes updatedNote now
  (newNotes, some (Stored.valid newNotes))

/-- Function `deleteNote` (lines 44–48). -/
def deleteNote (st : Option Stored) (newId : String) (now : Nat)
    (id : String) : List Note × Option Stored :=
  let notes := (getNotes st newId now).1.filter (fun n => n.id != id)
  (notes, some (Stored.valid notes))

/-- Counterexample for C5: with corrupt persisted state, `getNotes`
catches the parse failure and returns the empty collection, leaving the
stored value untouched — it does not reset to a single bootstrap
"welcome" note. -/
theorem corrupt_storage_cex :
    getNotes (some Stored.corrupt) "w" 5 = ([], some Stored.corrupt) ∧
    ([] : List Note) ≠ [initialNote "w" 5] := by
  exact ⟨rfl, by simp⟩

/-- C5 (amended). Loading never crashes: corrupt persisted state is
answered with the empty collection and the store is left unchanged, while
the bootstrap "welcome" note is created (and persisted) only when nothing
is stored at all. -/
theorem corrupt_storage_amended :
    (∀ (newId : String) (now : Nat),
      getNotes (some Stored.corrupt) newId now = ([], some Stored.corrupt)) ∧
    (∀ (newId : String) (now : Nat),
      getNotes none newId now =
        ([initialNote newId now], some (Stored.valid [initialNote newId now]))) ∧
    (∀ (ns : List Note) (newId : String) (now : Nat),
      getNotes (some (Stored.valid ns)) newId now = (ns, some (Stored.valid ns))) :=
  ⟨fun _ _ => rfl, fun _ _ => rfl, fun _ _ _ => rfl⟩

theorem findIdx?_some_of_mem (l : List Note) (x : Note)
    (h : x.id ∈ l.map (fun n => n.id)) :
    ∃ i, l.findIdx? (fun n => n.id == x.id) = some i := by
  cases hf : l.findIdx? (fun n => n.id == x.id) with
  | some i => exact ⟨i, rfl⟩
  | none =>
    rw [List.findIdx?_eq_none_iff] at hf
    obtain ⟨n, hn, hid⟩ := List.mem_map.mp h
    have hfalse := hf n hn
    rw [hid] at hfalse
    exact absurd hfalse (by simp)

theorem findIdx?_none_of_not_mem (l : List Note) (x : Note)
    (h : x.id ∉ l.map (fun n => n.id)) :
    l.findIdx? (fun n => n.id == x.id) = none := by
  rw [List.findIdx?_eq_none_iff]
  intro n hn
  refine beq_eq_false_iff_ne.mpr fun hh => h ?_
  exact List.mem_map.mpr ⟨n, hn, hh⟩

theorem set_getElem_self_eq {α : Type} : ∀ (l : List α) (i : Nat)
    (h : i < l.length), l.set i (l[i]) = l := by
  intro l
  induction l with
  | nil => intro i h; simp at h
  | cons a l ih =>
    intro i h
    cases i with
    | zero => rfl
    | succ j =>
      rw [List.set_cons_succ]
      rw [List.getElem_cons_succ, ih j (by simpa using h)]

theorem set_map_id (now : Nat) (l : List Note) (x : Note) (i : Nat)
    (h : l.findIdx? (fun n => n.id == x.id) = some i) :
    (l.set i { x with updatedAt := now }).map (fun n => n.id) =
      l.map (fun n => n.id) := by
  obtain ⟨hlt, hp, hmin⟩ := List.findIdx?_eq_some_iff_getElem.mp h
  rw [List.map_set]
  have hi2 : i < (l.map (fun n => n.id)).length := by simpa using hlt
  have hval : ({ x with updatedAt := now } : Note).id =
      (l.map (fun n => n.id))[i] := by
    rw [List.getElem_map]
    exact (eq_of_beq hp).symm
  rw [hval, set_getElem_self_eq _ i hi2]

end ZettelGenius

namespace ZettelGenius

/-- Counterexample for C6: after upserting note `a`, then note `b`, then
note `a` again (timestamps 0, 1, 2), the listed collection is
`[b, a]` although `a` carries the greatest updated timestamp — the
collection is not ordered most-recently-updated first, because an in-place
update does not move the note to the front. -/
theorem listing_order_cex :
    (getNotes (saveNote (saveNote (saveNote (some (Stored.valid []))
        "u" 0 (Note.mk "a" "A" "" [] 0 0)).2
        "u" 1 (Note.mk "b" "B" "" [] 1 1)).2
        "u" 2 (Note.mk "a" "A" "" [] 0 0)).2 "u" 3).1 =
      [Note.mk "b" "B" "" [] 1 1, Note.mk "a" "A" "" [] 0 2] ∧
    (Note.mk "b" "B" "" [] 1 1).updatedAt < (Note.mk "a" "A" "" [] 0 2).updatedAt := by
  exact ⟨rfl, by decide⟩

/-- C6 (amended). Listing returns the stored order, which is
most-recently-created first, not most-recently-updated first: an upsert of
an existing id rewrites the note in place (the id sequence of the
collection is unchanged), an upsert of a new id prepends the note, and a
delete filters the collection keeping the relative order of the rest. -/
theorem listing_order_amended :
    (∀ (notes : List Note) (note : Note) (now : Nat),
      (note.id ∈ notes.map (fun n => n.id) →
        (saveNoteOn notes note now).map (fun n => n.id) =
          notes.map (fun n => n.id)) ∧
      (note.id ∉ notes.map (fun n => n.id) →
        saveNoteOn notes note now = note :: notes)) ∧
    (∀ (st : Option Stored) (newId id : String) (now : Nat),
      (deleteNote st newId now id).1 =
        (getNotes st newId now).1.filter (fun n => n.id != id)) := by
  constructor
  · intro notes note now
    constructor
    · intro hmem
      obtain ⟨i, hi⟩ := findIdx?_some_of_mem notes note hmem
      rw [saveNoteOn, hi]
      exact set_map_id now notes note i hi
    · intro hnm
      rw [saveNoteOn, findIdx?_none_of_not_mem notes note hnm]
  · intro st newId id now
    rfl

/-- Witness for C6: the in-place branch on a collection containing the id,
and the prepend branch on one that does not. -/
theorem listing_order_amended_witness :
    (saveNoteOn [Note.mk "a" "A" "" [] 0 0]
        (Note.mk "a" "A2" "x" [] 0 0) 7).map (fun n => n.id) =
      [Note.mk "a" "A" "" [] 0 0].map (fun n => n.id) ∧
    saveNoteOn [Note.mk "a" "A" "" [] 0 0] (Note.mk "b" "B" "" [] 0 0) 7 =
      Note.mk "b" "B" "" [] 0 0 :: [Note.mk "a" "A" "" [] 0 0] := by
  constructor
  · exact (listing_order_amended.1 [Note.mk "a" "A" "" [] 0 0]
      (Note.mk "a" "A2" "x" [] 0 0) 7).1 (by simp)
  · exact (listing_order_amended.1 [Note.mk "a" "A" "" [] 0 0]
      (Note.mk "b" "B" "" [] 0 0) 7).2 (by simp)

/-- Counterexample for C7: upserting a note whose id is new does not set
its updated timestamp to the current time — the note is persisted exactly
as passed (updatedAt 0, although the current time is 99). -/
theorem upsert_timestamp_cex :
    saveNote (some (Stored.valid [])) "u" 99 (Note.mk "a" "T" "" [] 0 0) =
      ([Note.mk "a" "T" "" [] 0 0],
        some (Stored.valid [Note.mk "a" "T" "" [] 0 0])) ∧
    (Note.mk "a" "T" "" [] 0 0).updatedAt ≠ 99 := by
  exact ⟨rfl, by decide⟩

/-- C7 (amended). `saveNote` persists the note and returns the refreshed
collection containing it; the updated timestamp is set to the current time
only when the note's id already exists in the collection, while a new note
is prepended with its fields unchanged. The pair returned by `saveNote` is
exactly the transformed collection together with its persisted image. -/
theorem upsert_amended :
    ∀ (notes : List Note) (note : Note) (now : Nat),
      (note.id ∈ notes.map (fun n => n.id) →
        { note with updatedAt := now } ∈ saveNoteOn notes note now) ∧
      (note.id ∉ notes.map (fun n => n.id) →
        note ∈ saveNoteOn notes note now ∧
          saveNoteOn notes note now = note :: notes) ∧
      (∀ (st : Option Stored) (newId : String),
        saveNote st newId now note =
          (saveNoteOn (getNotes st newId now).1 note now,
            some (Stored.valid (saveNoteOn (getNotes st newId now).1 note now)))) := by
  intro notes note now
  refine ⟨?_, ?_, fun st newId => rfl⟩
  · intro hmem
    obtain ⟨i, hi⟩ := findIdx?_some_of_mem notes note hmem
    obtain ⟨hlt, _, _⟩ := List.findIdx?_eq_some_iff_getElem.mp hi
    rw [saveNoteOn, hi]
    have h1 : i < (notes.set i { note with updatedAt := now }).length := by
      simpa using hlt
    have h2 := List.getElem_set_self (l := notes) (i := i)
      (a := { note with updatedAt := now }) h1
    have hm := List.getElem_mem h1
    rw [h2] at hm
    exact hm
  · intro hnm
    rw [saveNoteOn, findIdx?_none_of_not_mem notes note hnm]
    exact ⟨List.mem_cons_self note notes, rfl⟩

/-- Witness for C7: the update branch on a collection containing the id
(timestamp refreshed to 7) and the insert branch on one that does not. -/
theorem upsert_amended_witness :
    Note.mk "a" "A2" "x" [] 0 7 ∈
      saveNoteOn [Note.mk "a" "A" "" [] 0 0] (Note.mk "a" "A2" "x" [] 0 0) 7 ∧
    (Note.mk "b" "B" "" [] 0 0 ∈
      saveNoteOn [Note.mk "a" "A" "" [] 0 0] (Note.mk "b" "B" "" [] 0 0) 7 ∧
      saveNoteOn [Note.mk "a" "A" "" [] 0 0] (Note.mk "b" "B" "" [] 0 0) 7 =
        Note.mk "b" "B" "" [] 0 0 :: [Note.mk "a" "A" "" [] 0 0]) := by
  constructor
  · exact (upsert_amended [Note.mk "a" "A" "" [] 0 0]
      (Note.mk "a" "A2" "x" [] 0 0) 7).1 (by simp)
  · exact (upsert_amended [Note.mk "a" "A" "" [] 0 0]
      (Note.mk "b" "B" "" [] 0 0) 7).2.1 (by simp)

end ZettelGenius

namespace ZettelGenius

/-- JS `textBefore.lastIndexOf('[[')` (NoteEditor, src/unnamed/part_000
line 53): the greatest index at which `[[` starts, `none` for `-1`. -/
def findLastOpen : List Char → Option Nat
  | [] => none
  | [_] => none
  | c :: d :: rest =>
    match findLastOpen (d :: rest) with
    | some j => some (j + 1)
    | none => if c = '[' ∧ d = '[' then some 0 else none

/-- The autocomplete trigger of `handleContentChange` (part_000 lines
50–62): take the text before the cursor, find the nearest preceding `[[`;
the popup opens with the text after that `[[` as filter when that text
contains neither `]]` nor a newline, and is closed otherwise. -/
def autoTrigger (newVal : List Char) (selectionStart : Nat) : Option (List Char) :=
  let textBefore := newVal.take selectionStart
  match findLastOpen textBefore with
  | some lastOpen =>
    let textAfterOpen := textBefore.drop (lastOpen + 2)
    if hasPair ']' ']' textAfterOpen || textAfterOpen.contains '\n' then none
    else some textAfterOpen
  | none => none

/-- JS `String.includes` (substring containment). -/
def containsSub (needle : List Char) : List Char → Bool
  | [] => needle.isEmpty
  | c :: t => needle.isPrefixOf (c :: t) || containsSub needle t

/-- The popup's candidate list (part_000 line 305):
`allNotes.filter(n => n.title.toLowerCase().includes(filter.toLowerCase()))`
— every known note whose lowercased title contains the lowercased filter;
the current note is not excluded and no result cap is applied. -/
def suggestionList (allNotes : List Note) (filter : List Char) : List Note :=
  allNotes.filter (fun n =>
    containsSub (lowerStr (String.mk filter)).data (lowerStr n.title).data)

theorem findLastOpen_none : ∀ l : List Char, findLastOpen l = none →
    hasPair '[' '[' l = false := by
  intro l
  induction l with
  | nil => intro _; rfl
  | cons c t ih =>
    intro h
    match t with
    | [] => rfl
    | d :: rest =>
      rw [findLastOpen] at h
      cases hf : findLastOpen (d :: rest) with
      | some j => rw [hf] at h; exact absurd h (by simp)
      | none =>
        rw [hf] at h
        by_cases hcd : c = '[' ∧ d = '['
        · rw [if_pos hcd] at h; exact absurd h (by simp)
        · rw [hasPair]
          have h1 : (c == '[' && d == '[') = false := by
            by_cases hc1 : c = '['
            · by_cases hd1 : d = '['
              · exact absurd ⟨hc1, hd1⟩ hcd
              · rw [beq_eq_false_iff_ne.mpr hd1]
                simp
            · rw [beq_eq_false_iff_ne.mpr hc1]
              simp
          rw [h1, ih hf]
          rfl

theorem findLastOpen_some : ∀ (l : List Char) (i : Nat), findLastOpen l = some i →
    l.take i ++ '[' :: '[' :: l.drop (i + 2) = l ∧
      hasPair '[' '[' (l.drop (i + 1)) = false := by
  intro l
  induction l with
  | nil => intro i h; simp [findLastOpen] at h
  | cons c t ih =>
    intro i h
    match t with
    | [] => simp [findLastOpen] at h
    | d :: rest =>
      rw [findLastOpen] at h
      cases hf : findLastOpen (d :: rest) with
      | some j =>
        rw [hf] at h
        injection h with h1
        subst h1
        obtain ⟨hdec, hmax⟩ := ih j hf
        constructor
        · rw [List.take_succ_cons]
          rw [show j + 1 + 2 = j + 2 + 1 from rfl]
          rw [List.drop_succ_cons, List.cons_append]
          rw [show (d :: rest).drop (j + 2) = (d :: rest).drop (j + 2) from rfl]
          exact congrArg (c :: ·) hdec
        · rw [show j + 1 + 1 = j + 1 + 1 from rfl, List.drop_succ_cons]
          exact hmax
      | none =>
        rw [hf] at h
        by_cases hcd : c = '[' ∧ d = '['
        · rw [if_pos hcd] at h
          injection h with h1
          subst h1
          constructor
          · rw [hcd.1, hcd.2]; rfl
          · rw [List.drop_succ_cons, List.drop_zero]
            exact findLastOpen_none (d :: rest) hf
        · rw [if_neg hcd] at h
          exact absurd h (by simp)

theorem hasPair_of_decomp (a b : Char) : ∀ (x y : List Char),
    hasPair a b (x ++ a :: b :: y) = true := by
  intro x y
  induction x with
  | nil => rw [List.nil_append, hasPair]; simp
  | cons c t ih =>
    rw [List.cons_append]
    match h : t ++ a :: b :: y with
    | [] => exact absurd (congrArg List.length h) (by simp)
    | e :: f =>
      rw [hasPair, ← h, ih]
      simp

theorem hasPair_tail_false {a b : Char} : ∀ {l : List Char},
    hasPair a b l = false → hasPair a b (l.drop 1) = false := by
  intro l h
  match l with
  | [] => rfl
  | [c] => rfl
  | c :: d :: rest =>
    rw [hasPair] at h
    rcases Bool.or_eq_false_iff.mp h with ⟨_, h2⟩
    exact h2

theorem autoTrigger_eq (v : List Char) (s : Nat) :
    autoTrigger v s = match findLastOpen (v.take s) with
      | some i =>
        if hasPair ']' ']' ((v.take s).drop (i + 2)) ||
            ((v.take s).drop (i + 2)).contains '\n' then none
        else some ((v.take s).drop (i + 2))
      | none => none := rfl

end ZettelGenius

namespace ZettelGenius

/-- Counterexample for C8 as stated: on body `"Check [[Sp"` with the
cursor at the end the trigger is open with filter `"Sp"`, yet the
candidate list produced from `allNotes` contains the current note itself
(no exclusion), and with eleven matching notes all eleven are returned
(no cap at 10). -/
theorem autocomplete_cex :
    autoTrigger "Check [[Sp".data 10 = some ['S', 'p'] ∧
    Note.mk "cur" "Space" "Check [[Sp" [] 0 0 ∈
      suggestionList [Note.mk "cur" "Space" "Check [[Sp" [] 0 0] ['S', 'p'] ∧
    (suggestionList [Note.mk "1" "Sp 1" "" [] 0 0, Note.mk "2" "Sp 2" "" [] 0 0,
      Note.mk "3" "Sp 3" "" [] 0 0, Note.mk "4" "Sp 4" "" [] 0 0,
      Note.mk "5" "Sp 5" "" [] 0 0, Note.mk "6" "Sp 6" "" [] 0 0,
      Note.mk "7" "Sp 7" "" [] 0 0, Note.mk "8" "Sp 8" "" [] 0 0,
      Note.mk "9" "Sp 9" "" [] 0 0, Note.mk "10" "Sp 10" "" [] 0 0,
      Note.mk "11" "Sp 11" "" [] 0 0] ['S', 'p']).length = 11 := by
  refine ⟨by decide, by decide, by decide⟩

/-- C8 (amended). The resolver is open exactly around an unterminated
same-line `[[` trigger: when it answers a filter `f`, the text before the
cursor decomposes as some prefix, then `[[`, then `f`, where `f` contains
no further `[[` (the trigger is the nearest preceding one), no `]]`, and
no newline; when the text before the cursor contains no `[[` at all, the
popup is closed. The candidate list consists of every known note whose
lowercased title contains the lowercased filter as a substring — not
excluding the current note and without a result cap. On `"Check [[Sp"`
with the cursor at the end the resolver is open with filter `"Sp"` and a
note titled `"Space"` is among the candidates; on `"Check [[Sp]] more"`
with the cursor after `"more"` it is closed. -/
theorem autocomplete_resolver :
    (∀ (v : List Char) (s : Nat) (f : List Char), autoTrigger v s = some f →
      (∃ pre, v.take s = pre ++ '[' :: '[' :: f) ∧
        hasPair '[' '[' f = false ∧ hasPair ']' ']' f = false ∧
        f.contains '\n' = false) ∧
    (∀ (v : List Char) (s : Nat), hasPair '[' '[' (v.take s) = false →
      autoTrigger v s = none) ∧
    (∀ (allNotes : List Note) (f : List Char) (n : Note),
      n ∈ suggestionList allNotes f ↔ n ∈ allNotes ∧
        containsSub (lowerStr (String.mk f)).data (lowerStr n.title).data = true) ∧
    (autoTrigger "Check [[Sp".data 10 = some ['S', 'p'] ∧
      Note.mk "s1" "Space" "intro" [] 0 0 ∈
        suggestionList [Note.mk "s1" "Space" "intro" [] 0 0] ['S', 'p']) ∧
    autoTrigger "Check [[Sp]] more".data 17 = none := by
  refine ⟨?_, ?_, ?_, ⟨by decide, by decide⟩, by decide⟩
  · intro v s f h
    rw [autoTrigger_eq] at h
    cases hf : findLastOpen (v.take s) with
    | none =>
      rw [hf] at h
      exact absurd h (by simp)
    | some i =>
      rw [hf] at h
      have h' : (if (hasPair ']' ']' ((v.take s).drop (i + 2)) ||
          ((v.take s).drop (i + 2)).contains '\n') = true
          then (none : Option (List Char))
          else some ((v.take s).drop (i + 2))) = some f := h
      by_cases hcond : (hasPair ']' ']' ((v.take s).drop (i + 2)) ||
          ((v.take s).drop (i + 2)).contains '\n') = true
      · rw [if_pos hcond] at h'
        exact absurd h' (by simp)
      · rw [if_neg hcond] at h'
        injection h' with h2
        subst h2
        obtain ⟨hdec, hmax⟩ := findLastOpen_some (v.take s) i hf
        obtain ⟨hc1, hc2⟩ := Bool.or_eq_false_iff.mp (Bool.eq_false_iff.mpr hcond)
        refine ⟨⟨(v.take s).take i, hdec.symm⟩, ?_, hc1, hc2⟩
        have hstep : (v.take s).drop (i + 2) = ((v.take s).drop (i + 1)).drop 1 := by
          rw [List.drop_drop]
        rw [hstep]
        exact hasPair_tail_false hmax
  · intro v s h
    rw [autoTrigger_eq]
    cases hf : findLastOpen (v.take s) with
    | none => rfl
    | some i =>
      obtain ⟨hdec, _⟩ := findLastOpen_some (v.take s) i hf
      have : hasPair '[' '[' (v.take s) = true := by
        rw [← hdec]
        exact hasPair_of_decomp '[' '[' _ _
      rw [this] at h
      exact absurd h (by simp)
  · intro allNotes f n
    unfold suggestionList
    exact List.mem_filter

/-- Witness for C8: the open-trigger characterization applied on
`"Check [[Sp"` at cursor 10, the closed case on a body with no `[[`, and
the candidate characterization on the note titled `"Space"`. -/
theorem autocomplete_resolver_witness :
    ((∃ pre, ("Check [[Sp".data).take 10 = pre ++ '[' :: '[' :: ['S', 'p']) ∧
      hasPair '[' '[' ['S', 'p'] = false ∧ hasPair ']' ']' ['S', 'p'] = false ∧
      (['S', 'p'] : List Char).contains '\n' = false) ∧
    autoTrigger "no link here".data 12 = none ∧
    Note.mk "s1" "Space" "intro" [] 0 0 ∈
      suggestionList [Note.mk "s1" "Space" "intro" [] 0 0] ['S', 'p'] := by
  refine ⟨?_, ?_, ?_⟩
  · exact autocomplete_resolver.1 "Check [[Sp".data 10 ['S', 'p'] (by decide)
  · exact autocomplete_resolver.2.1 "no link here".data 12 (by decide)
  · exact (autocomplete_resolver.2.2.1 [Note.mk "s1" "Space" "intro" [] 0 0]
      ['S', 'p'] (Note.mk "s1" "Space" "intro" [] 0 0)).mpr (by decide)

end ZettelGenius

namespace ZettelGenius

/-- A simulation node as created by the graph effect's data-preparation
step (NetworkGraph.tsx lines 84–89, variant at 385–389): a fresh object
carrying id, display title (`n.title || "Untitled"`), group and tags; the
`d3.SimulationNodeDatum` position and velocity fields are absent (`none`)
until a simulation assigns them. -/
structure GraphNode where
  id : String
  title : String
  group : Nat
  tags : List String
  x : Option Int
  y : Option Int
  vx : Option Int
  vy : Option Int
deriving DecidableEq

def mkGraphNodes (notes : List Note) : List GraphNode :=
  notes.map (fun n =>
    { id := n.id, title := if n.title = "" then "Untitled" else n.title,
      group := 1, tags := n.tags,
      x := none, y := none, vx := none, vy := none })

/-- One run of the graph `useEffect` viewed as a function of the current
notes and of the layout state left behind by the previous run (a position
per node id). The effect body (lines 37–111, variant at 338–412) begins
with `selectAll("*").remove()` and rebuilds `nodes` from `notes` alone,
handing them to a brand-new `forceSimulation`; no ref or closure carries
the previous run's node objects into the new run, so the `prev` layout
parameter is never consulted. -/
def effectNodes (notes : List Note)
    (prev : String → Option (Int × Int)) : List GraphNode :=
  mkGraphNodes notes

/-- Counterexample for C4: a previous layout placing the one existing,
entirely unaffected node at (5, 5) is not retained — after the effect
re-runs, the rebuilt node's position is unset (`none`), i.e. the layout
is recomputed from scratch rather than carried over. -/
theorem layout_continuity_cex :
    effectNodes [Note.mk "a" "A" "" [] 0 0] (fun _ => some (5, 5)) =
      [GraphNode.mk "a" "A" 1 [] none none none none] ∧
    (none : Option Int) ≠ some 5 := by
  exact ⟨rfl, by simp⟩

/-- C4 (amended). On every node-set change the effect rebuilds the whole
simulation input from scratch: the rebuilt nodes depend only on the
current notes (any two previous layouts give the identical result), every
rebuilt node starts with unset position and velocity, and the rebuilt
node list mirrors the note collection id for id — no layout state of any
existing node is retained across the rebuild. -/
theorem layout_rebuilt_from_scratch :
    (∀ (notes : List Note) (prev1 prev2 : String → Option (Int × Int)),
      effectNodes notes prev1 = effectNodes notes prev2) ∧
    (∀ (notes : List Note) (prev : String → Option (Int × Int)) (g : GraphNode),
      g ∈ effectNodes notes prev →
        g.x = none ∧ g.y = none ∧ g.vx = none ∧ g.vy = none) ∧
    (∀ (notes : List Note) (prev : String → Option (Int × Int)),
      (effectNodes notes prev).map (fun g => g.id) =
        notes.map (fun n => n.id)) := by
  refine ⟨fun _ _ _ => rfl, ?_, ?_⟩
  · intro notes prev g hg
    obtain ⟨n, _, hn⟩ := List.mem_map.mp hg
    rw [← hn]
    exact ⟨rfl, rfl, rfl, rfl⟩
  · intro notes prev
    rw [effectNodes, mkGraphNodes, List.map_map]
    rfl

/-- Witness for C4: the fresh-fields fact applied to the rebuilt node of
a concrete one-note collection under a nontrivial previous layout. -/
theorem layout_rebuilt_from_scratch_witness :
    (GraphNode.mk "a" "A" 1 [] none none none none).x = none ∧
    (GraphNode.mk "a" "A" 1 [] none none none none).y = none ∧
    (GraphNode.mk "a" "A" 1 [] none none none none).vx = none ∧
    (GraphNode.mk "a" "A" 1 [] none none none none).vy = none := by
  exact layout_rebuilt_from_scratch.2.1 [Note.mk "a" "A" "" [] 0 0]
    (fun _ => some (5, 5)) (GraphNode.mk "a" "A" 1 [] none none none none)
    (by decide)

end ZettelGenius
